import Mathlib

/-!
Verification of the batching/archival controller and helper functions of
`telegram_ytdlp_bot.py`, a Telegram bot that downloads media and uploads
ZIP batches to PixelDrain.

The bulk loop `do_bulk` is embedded as a fold over a list of fetch
outcomes (`some dl` = the download of item `idx` succeeded with result
`dl`, `none` = `ytdlp_download` raised and the loop continued).  The
upload of a finished ZIP can fail; its outcome is modelled by an oracle
`uploadOk : Nat → Bool` indexed by the batch number.  Messaging calls
(`message.answer`, `note.edit_text`) are treated as infallible.
-/

namespace TgBot

/-- Constant `BATCH_SIZE = 10`: one ZIP after every N downloaded videos. -/
def BATCH_SIZE : Nat := 10

/-- The mutable state of the `do_bulk` loop, plus the observable outputs:
`containers` records each ZIP that was produced (`make_zip_single`),
as (batch index, members); `uploads` records each PixelDrain upload
attempt as (batch index, outcome). -/
structure BulkState (α : Type) where
  batch_files : List α
  batch_index : Nat
  processed : Nat
  containers : List (Nat × List α)
  uploads : List (Nat × Bool)
  deriving Repr, DecidableEq

/-- The initial state of a `do_bulk` run: empty batch, `batch_index = 1`,
`processed = 0`. -/
def initState (α : Type) : BulkState α :=
  { batch_files := [], batch_index := 1, processed := 0,
    containers := [], uploads := [] }

/-- One iteration of the `for idx, watch_url in enumerate(urls, 1)` loop of
`do_bulk`.  A failed fetch (`none`) just continues.  A successful fetch is
appended to `batch_files` and `processed` is incremented; when the batch
reaches `BATCH_SIZE` the ZIP is made, its upload attempted, and a fresh
batch started regardless of the upload outcome. -/
def bulkStep {α : Type} (uploadOk : Nat → Bool) (st : BulkState α)
    (o : Option α) : BulkState α :=
  match o with
  | none => st
  | some dl =>
    let bf := st.batch_files ++ [dl]
    let pr := st.processed + 1
    if BATCH_SIZE ≤ bf.length then
      { batch_files := [], batch_index := st.batch_index + 1, processed := pr,
        containers := st.containers ++ [(st.batch_index, bf)],
        uploads := st.uploads ++ [(st.batch_index, uploadOk st.batch_index)] }
    else
      { st with batch_files := bf, processed := pr }

/-- The item loop of `do_bulk`, folded over the list of fetch outcomes. -/
def bulkLoop {α : Type} (uploadOk : Nat → Bool) (st : BulkState α)
    (outcomes : List (Option α)) : BulkState α :=
  outcomes.foldl (bulkStep uploadOk) st

/-- The remainder flush at the end of `do_bulk`: `if batch_files:` make the
ZIP, attempt the upload, report. -/
def flushRemainder {α : Type} (uploadOk : Nat → Bool) (st : BulkState α) :
    BulkState α :=
  if st.batch_files.isEmpty then st
  else
    { batch_files := [], batch_index := st.batch_index + 1,
      processed := st.processed,
      containers := st.containers ++ [(st.batch_index, st.batch_files)],
      uploads := st.uploads ++ [(st.batch_index, uploadOk st.batch_index)] }

/-- The whole `do_bulk` run: item loop, then remainder flush. -/
def do_bulk {α : Type} (uploadOk : Nat → Bool)
    (outcomes : List (Option α)) : BulkState α :=
  flushRemainder uploadOk (bulkLoop uploadOk (initState α) outcomes)

/-- The final `"Оброблено: X з Y"` tally of `do_bulk`:
(processed, total discovered). -/
def finalTally {α : Type} (uploadOk : Nat → Bool)
    (outcomes : List (Option α)) : Nat × Nat :=
  ((do_bulk uploadOk outcomes).processed, outcomes.length)

/-- The successfully fetched items of a run, in fetch order. -/
def successes {α : Type} (outcomes : List (Option α)) : List α :=
  outcomes.filterMap id

/-- Loop invariant of the `do_bulk` item loop after the outcomes `seen`
have been consumed: the produced ZIPs plus the open batch hold exactly
the successful items in order; every produced ZIP is full; the open
batch is below the threshold; `processed` counts the successes;
`batch_index` counts the ZIPs made so far plus one; every ZIP got
exactly one upload attempt; batch indices are `1, 2, ...` in order. -/
structure LoopInv {α : Type} (uploadOk : Nat → Bool) (st : BulkState α)
    (seen : List (Option α)) : Prop where
  flat_eq : (st.containers.map (fun c => c.2)).flatten ++ st.batch_files
      = successes seen
  full : ∀ c ∈ st.containers, c.2.length = BATCH_SIZE
  open_lt : st.batch_files.length < BATCH_SIZE
  proc : st.processed = (successes seen).length
  bidx : st.batch_index = st.containers.length + 1
  upl : st.uploads = st.containers.map (fun c => (c.1, uploadOk c.1))
  idxs : st.containers.map (fun c => c.1) = List.range' 1 st.containers.length

theorem inv_init {α : Type} (u : Nat → Bool) : LoopInv u (initState α) [] := by
  refine ⟨?_, ?_, ?_, ?_, ?_, ?_, ?_⟩ <;> simp [initState, successes, BATCH_SIZE]

theorem inv_step {α : Type} {u : Nat → Bool} {st : BulkState α}
    {seen : List (Option α)} (h : LoopInv u st seen) (o : Option α) :
    LoopInv u (bulkStep u st o) (seen ++ [o]) := by
  cases o with
  | none =>
    have hs : successes (seen ++ [(none : Option α)]) = successes seen := by
      simp [successes]
    exact ⟨by rw [hs]; exact h.flat_eq, h.full, h.open_lt,
      by rw [hs]; exact h.proc, h.bidx, h.upl, h.idxs⟩
  | some dl =>
    have hs : successes (seen ++ [some dl]) = successes seen ++ [dl] := by
      simp [successes]
    by_cases hfull : BATCH_SIZE ≤ (st.batch_files ++ [dl]).length
    · have hlen : (st.batch_files ++ [dl]).length = BATCH_SIZE := by
        have := h.open_lt; simp at hfull ⊢; omega
      have hb : bulkStep u st (some dl) =
          { batch_files := [], batch_index := st.batch_index + 1,
            processed := st.processed + 1,
            containers := st.containers
              ++ [(st.batch_index, st.batch_files ++ [dl])],
            uploads := st.uploads
              ++ [(st.batch_index, u st.batch_index)] } := by
        simp only [bulkStep, if_pos hfull]
      rw [hb]
      refine ⟨?_, ?_, ?_, ?_, ?_, ?_, ?_⟩
      · simp only [List.map_append, List.map_cons, List.map_nil,
          List.flatten_append, List.flatten_cons, List.flatten_nil, hs]
        rw [List.append_nil, List.append_nil, ← List.append_assoc, h.flat_eq]
      · intro c hc
        rcases List.mem_append.mp hc with hc | hc
        · exact h.full c hc
        · simp at hc; rw [hc]; exact hlen
      · simp [BATCH_SIZE]
      · simp [hs, h.proc]
      · simp [h.bidx]
      · simp [h.upl, h.bidx]
      · simp only [List.map_append, List.map_cons, List.map_nil, h.idxs,
          List.length_append, List.length_cons, List.length_nil, h.bidx]
        rw [List.range'_concat]
        simp [Nat.add_comm]
    · have hb : bulkStep u st (some dl) =
          { st with batch_files := st.batch_files ++ [dl],
                    processed := st.processed + 1 } := by
        simp only [bulkStep, if_neg hfull]
      rw [hb]
      refine ⟨?_, ?_, ?_, ?_, ?_, ?_, ?_⟩
      · simp only [hs]
        rw [← List.append_assoc, h.flat_eq]
      · exact h.full
      · exact Nat.lt_of_not_le hfull
      · simp [hs, h.proc]
      · exact h.bidx
      · exact h.upl
      · exact h.idxs

theorem inv_loop {α : Type} {u : Nat → Bool} {st : BulkState α}
    {seen : List (Option α)} (h : LoopInv u st seen)
    (os : List (Option α)) :
    LoopInv u (bulkLoop u st os) (seen ++ os) := by
  induction os generalizing st seen with
  | nil => simpa [bulkLoop] using h
  | cons o os ih =>
    have h2 := ih (inv_step h o)
    simpa [bulkLoop, List.append_assoc] using h2

theorem do_bulk_inv {α : Type} (u : Nat → Bool) (outcomes : List (Option α)) :
    LoopInv u (bulkLoop u (initState α) outcomes) outcomes := by
  simpa using inv_loop (inv_init u) outcomes

/-- Post-run characterisation of `do_bulk`: the ZIPs' members concatenate
to exactly the successful items, the final open batch is empty, the final
tally counts the successes, the ZIP sizes are full batches of
`BATCH_SIZE` followed by the remainder, every ZIP got exactly one upload
attempt, and the batch indices are `1, 2, ...`. -/
theorem do_bulk_spec {α : Type} (u : Nat → Bool) (outcomes : List (Option α)) :
    ((do_bulk u outcomes).containers.map (fun c => c.2)).flatten
        = successes outcomes
    ∧ (do_bulk u outcomes).batch_files = []
    ∧ (do_bulk u outcomes).processed = (successes outcomes).length
    ∧ (do_bulk u outcomes).containers.map (fun c => c.2.length)
        = List.replicate ((successes outcomes).length / BATCH_SIZE) BATCH_SIZE
          ++ (if (successes outcomes).length % BATCH_SIZE = 0 then []
              else [(successes outcomes).length % BATCH_SIZE])
    ∧ (do_bulk u outcomes).uploads
        = (do_bulk u outcomes).containers.map (fun c => (c.1, u c.1))
    ∧ (do_bulk u outcomes).containers.map (fun c => c.1)
        = List.range' 1 (do_bulk u outcomes).containers.length := by
  have inv := do_bulk_inv u outcomes
  set st := bulkLoop u (initState α) outcomes with hst
  have hrep : st.containers.map (fun c => c.2.length)
      = List.replicate st.containers.length BATCH_SIZE := by
    rw [List.eq_replicate_iff]
    refine ⟨by simp, ?_⟩
    intro b hb
    obtain ⟨c, hc, rfl⟩ := List.mem_map.mp hb
    exact inv.full c hc
  have hflatlen : ((st.containers.map (fun c => c.2)).flatten).length
      = st.containers.length * BATCH_SIZE := by
    rw [List.length_flatten, List.map_map]
    have : (List.map (List.length ∘ fun c => c.2) st.containers)
        = List.replicate st.containers.length BATCH_SIZE := by
      rw [← hrep]; rfl
    rw [this, List.sum_replicate, smul_eq_mul]
  have hN : (successes outcomes).length
      = st.containers.length * BATCH_SIZE + st.batch_files.length := by
    rw [← inv.flat_eq, List.length_append, hflatlen]
  have hB : (0 : Nat) < BATCH_SIZE := by decide
  have hopen := inv.open_lt
  unfold do_bulk flushRemainder
  rw [← hst]
  by_cases hbf : st.batch_files.isEmpty
  · have hbfe : st.batch_files = [] := List.isEmpty_iff.mp hbf
    rw [if_pos hbf]
    have hN0 : (successes outcomes).length = st.containers.length * BATCH_SIZE := by
      rw [hN, hbfe]; simp
    have hdiv : (successes outcomes).length / BATCH_SIZE = st.containers.length := by
      rw [hN0, Nat.mul_div_cancel _ hB]
    have hmod : (successes outcomes).length % BATCH_SIZE = 0 := by
      rw [hN0, Nat.mul_mod_left]
    refine ⟨?_, hbfe, inv.proc, ?_, inv.upl, inv.idxs⟩
    · rw [← inv.flat_eq, hbfe, List.append_nil]
    · rw [hdiv, if_pos hmod, List.append_nil, hrep]
  · have hbfe : st.batch_files ≠ [] := by
      intro hh; rw [hh] at hbf; simp at hbf
    have hlenpos : 0 < st.batch_files.length := List.length_pos.mpr hbfe
    rw [if_neg hbf]
    have hdiv : (successes outcomes).length / BATCH_SIZE = st.containers.length := by
      rw [hN, Nat.add_comm, Nat.add_mul_div_right _ _ hB,
        Nat.div_eq_of_lt hopen, Nat.zero_add]
    have hmod : (successes outcomes).length % BATCH_SIZE = st.batch_files.length := by
      rw [hN, Nat.add_comm, Nat.add_mul_mod_self_right,
        Nat.mod_eq_of_lt hopen]
    refine ⟨?_, rfl, inv.proc, ?_, ?_, ?_⟩
    · simp only [List.map_append, List.map_cons, List.map_nil,
        List.flatten_append, List.flatten_cons, List.flatten_nil,
        List.append_nil]
      exact inv.flat_eq
    · rw [hdiv, hmod, if_neg (by omega)]
      simp only [List.map_append, List.map_cons, List.map_nil, hrep]
    · simp [inv.upl, inv.bidx]
    · simp only [List.map_append, List.map_cons, List.map_nil, inv.idxs,
        List.length_append, List.length_cons, List.length_nil, inv.bidx]
      rw [List.range'_concat]
      simp [Nat.add_comm]

theorem successes_length_of_all_isSome {α : Type} {outcomes : List (Option α)}
    (h : ∀ o ∈ outcomes, o.isSome) :
    (successes outcomes).length = outcomes.length := by
  induction outcomes with
  | nil => rfl
  | cons o os ih =>
    cases o with
    | none => simpa using h none (by simp)
    | some a =>
      have : (successes os).length = os.length :=
        ih (fun o ho => h o (by simp [ho]))
      simp [successes] at this ⊢
      exact this

theorem successes_eq_nil_of_all_none {α : Type} {outcomes : List (Option α)}
    (h : ∀ o ∈ outcomes, o = none) : successes outcomes = [] := by
  induction outcomes with
  | nil => rfl
  | cons o os ih =>
    have ho : o = none := h o (by simp)
    subst ho
    have hrest : successes os = [] := ih (fun o hm => h o (by simp [hm]))
    simp only [successes, List.filterMap_cons] at hrest ⊢
    exact hrest

/-- The state of the bulk loop apart from the recorded upload outcomes,
used to show that the control flow of `do_bulk` never reads an upload's
result. -/
structure CoreState (α : Type) where
  batch_files : List α
  batch_index : Nat
  processed : Nat
  containers : List (Nat × List α)
  deriving Repr, DecidableEq

/-- Projection of a `BulkState` onto everything but the upload log. -/
def coreOf {α : Type} (st : BulkState α) : CoreState α :=
  { batch_files := st.batch_files, batch_index := st.batch_index,
    processed := st.processed, containers := st.containers }

/-- Variant of `bulkStep` without the upload log; it takes no upload oracle. -/
def coreStep {α : Type} (cs : CoreState α) (o : Option α) : CoreState α :=
  match o with
  | none => cs
  | some dl =>
    let bf := cs.batch_files ++ [dl]
    let pr := cs.processed + 1
    if BATCH_SIZE ≤ bf.length then
      { batch_files := [], batch_index := cs.batch_index + 1, processed := pr,
        containers := cs.containers ++ [(cs.batch_index, bf)] }
    else
      { cs with batch_files := bf, processed := pr }

/-- Variant of `flushRemainder` without the upload log. -/
def coreFlush {α : Type} (cs : CoreState α) : CoreState α :=
  if cs.batch_files.isEmpty then cs
  else
    { batch_files := [], batch_index := cs.batch_index + 1,
      processed := cs.processed,
      containers := cs.containers ++ [(cs.batch_index, cs.batch_files)] }

theorem coreOf_bulkStep {α : Type} (u : Nat → Bool) (st : BulkState α)
    (o : Option α) : coreOf (bulkStep u st o) = coreStep (coreOf st) o := by
  cases o with
  | none => rfl
  | some dl =>
    by_cases hfull : BATCH_SIZE ≤ (st.batch_files ++ [dl]).length
    · simp only [bulkStep, coreStep, coreOf, if_pos hfull]
    · simp only [bulkStep, coreStep, coreOf, if_neg hfull]

theorem coreOf_bulkLoop {α : Type} (u : Nat → Bool) (st : BulkState α)
    (os : List (Option α)) :
    coreOf (bulkLoop u st os) = os.foldl coreStep (coreOf st) := by
  induction os generalizing st with
  | nil => rfl
  | cons o os ih =>
    simp only [bulkLoop, List.foldl_cons] at *
    rw [← coreOf_bulkStep u st o]
    exact ih _

theorem coreOf_flushRemainder {α : Type} (u : Nat → Bool) (st : BulkState α) :
    coreOf (flushRemainder u st) = coreFlush (coreOf st) := by
  by_cases hbf : st.batch_files.isEmpty
  · simp only [flushRemainder, coreFlush, coreOf, if_pos hbf]
  · simp only [flushRemainder, coreFlush, coreOf, if_neg hbf]

/-- The whole run, projected: it is a function of the fetch outcomes
alone, with the upload oracle gone. -/
theorem coreOf_do_bulk {α : Type} (u : Nat → Bool) (outcomes : List (Option α)) :
    coreOf (do_bulk u outcomes)
      = coreFlush (outcomes.foldl coreStep (coreOf (initState α))) := by
  rw [do_bulk, coreOf_flushRemainder, coreOf_bulkLoop]

/-- Modelled from the spec: the size-bounded bounding policy of
`BatchArchiver` (§4.1), which other revisions of this repository use but
which is absent from this source file (here `do_bulk` is count-bounded).
"Maintain a running byte total for the open Batch.  Before adding a
candidate member of size S, if the batch is non-empty and
`current_total + S > budget_bytes`, close the current Batch first
(producing a Container), then start a new Batch containing just the
candidate."  State: (open batch member sizes, closed containers). -/
def sizeStep (budget : Nat) (st : List Nat × List (List Nat)) (s : Nat) :
    List Nat × List (List Nat) :=
  if st.1 ≠ [] ∧ budget < st.1.sum + s then ([s], st.2 ++ [st.1])
  else (st.1 ++ [s], st.2)

/-- Modelled from the spec: run the size-bounded policy over a sequence
of member sizes and flush the non-empty remainder batch at the end
(§4.2 step 4), returning the closed containers in order. -/
def sizeBatch (budget : Nat) (sizes : List Nat) : List (List Nat) :=
  let r := sizes.foldl (sizeStep budget) ([], [])
  if r.1 = [] then r.2 else r.2 ++ [r.1]

theorem sizeBatch_loop (budget : Nat) (sizes : List Nat) :
    ∀ batch cs,
    (∀ c ∈ cs, c.sum ≤ budget ∨ ∃ s, c = [s]) →
    (batch.sum ≤ budget ∨ ∃ s, batch = [s]) →
    (∀ c ∈ cs, c ≠ []) →
    (∀ c ∈ (sizes.foldl (sizeStep budget) (batch, cs)).2,
        c.sum ≤ budget ∨ ∃ s, c = [s])
    ∧ ((sizes.foldl (sizeStep budget) (batch, cs)).1.sum ≤ budget
        ∨ ∃ s, (sizes.foldl (sizeStep budget) (batch, cs)).1 = [s])
    ∧ (∀ c ∈ (sizes.foldl (sizeStep budget) (batch, cs)).2, c ≠ [])
    ∧ ((sizes.foldl (sizeStep budget) (batch, cs)).2.flatten
          ++ (sizes.foldl (sizeStep budget) (batch, cs)).1
        = cs.flatten ++ batch ++ sizes) := by
  induction sizes with
  | nil =>
    intro batch cs h1 h2 h3
    exact ⟨h1, h2, h3, by simp⟩
  | cons s rest ih =>
    intro batch cs h1 h2 h3
    by_cases hcl : batch ≠ [] ∧ budget < batch.sum + s
    · have hstep : sizeStep budget (batch, cs) s = ([s], cs ++ [batch]) := by
        simp only [sizeStep, if_pos hcl]
      have h1' : ∀ c ∈ cs ++ [batch], c.sum ≤ budget ∨ ∃ t, c = [t] := by
        intro c hc
        rcases List.mem_append.mp hc with hc | hc
        · exact h1 c hc
        · simp at hc; rw [hc]; exact h2
      have h2' : List.sum [s] ≤ budget ∨ ∃ t, [s] = [t] := Or.inr ⟨s, rfl⟩
      have h3' : ∀ c ∈ cs ++ [batch], c ≠ [] := by
        intro c hc
        rcases List.mem_append.mp hc with hc | hc
        · exact h3 c hc
        · simp at hc; rw [hc]; exact hcl.1
      have := ih [s] (cs ++ [batch]) h1' h2' h3'
      simp only [List.foldl_cons, hstep]
      refine ⟨this.1, this.2.1, this.2.2.1, ?_⟩
      rw [this.2.2.2]
      simp
    · have hstep : sizeStep budget (batch, cs) s = (batch ++ [s], cs) := by
        simp only [sizeStep, if_neg hcl]
      have h2' : (batch ++ [s]).sum ≤ budget ∨ ∃ t, batch ++ [s] = [t] := by
        rcases List.eq_nil_or_concat batch with hb | _
        · exact Or.inr ⟨s, by rw [hb]; rfl⟩
        · have hb : batch ≠ [] := by
            rename_i hx; obtain ⟨l, a, rfl⟩ := hx; simp
          have : ¬ budget < batch.sum + s := fun hlt => hcl ⟨hb, hlt⟩
          exact Or.inl (by simp; omega)
      have := ih (batch ++ [s]) cs h1 h2' h3
      simp only [List.foldl_cons, hstep]
      refine ⟨this.1, this.2.1, this.2.2.1, ?_⟩
      rw [this.2.2.2]
      simp

/-- Derived facts about `sizeBatch`: every container is within budget
unless it is a single oversized member; members are neither reordered,
split nor dropped; no container is empty. -/
theorem sizeBatch_spec (budget : Nat) (sizes : List Nat) :
    (∀ c ∈ sizeBatch budget sizes,
        (budget < c.sum → ∃ s, c = [s] ∧ budget < s) ∧ c ≠ [])
    ∧ (sizeBatch budget sizes).flatten = sizes := by
  have h := sizeBatch_loop budget sizes [] []
    (by intro c hc; simp at hc) (Or.inl (by simp)) (by intro c hc; simp at hc)
  obtain ⟨h1, h2, h3, h4⟩ := h
  unfold sizeBatch
  by_cases hb : (sizes.foldl (sizeStep budget) ([], [])).1 = []
  · rw [if_pos hb]
    constructor
    · intro c hc
      refine ⟨?_, h3 c hc⟩
      intro hlt
      rcases h1 c hc with hle | ⟨s, rfl⟩
      · omega
      · exact ⟨s, rfl, by simpa using hlt⟩
    · rw [hb, List.append_nil] at h4
      simpa using h4
  · rw [if_neg hb]
    constructor
    · intro c hc
      rcases List.mem_append.mp hc with hc | hc
      · refine ⟨?_, h3 c hc⟩
        intro hlt
        rcases h1 c hc with hle | ⟨s, rfl⟩
        · omega
        · exact ⟨s, rfl, by simpa using hlt⟩
      · simp at hc
        subst hc
        refine ⟨?_, hb⟩
        intro hlt
        rcases h2 with hle | ⟨s, hs⟩
        · omega
        · exact ⟨s, hs, by rw [hs] at hlt; simpa using hlt⟩
    · rw [List.flatten_append]
      simpa using h4

/-- Helper `_build_format_string(mode, height)` from the source.  `height` is a
Python int; the condition `if height and height > 0` is equivalent to
`height > 0`. -/
def _build_format_string (mode : String) (height : Int) : String :=
  if mode = "audio" then "ba/bestaudio/best"
  else if 0 < height then
    "bv*[height<=" ++ toString height ++ "][ext=mp4]+ba[ext=m4a]/"
      ++ "bv*[height<=" ++ toString height ++ "]+ba/"
      ++ "b[height<=" ++ toString height ++ "]/"
      ++ "bv*+ba/b"
  else "bv*+ba/b"

/-- The download options `ytdlp_download` varies between attempts:
the `format` selector and the `extractor_args` youtube `player_client`
list.  The remaining entries of `YTDLP_COMMON` (headers, `outtmpl`,
`paths`, `merge_output_format`, ...) are identical on every attempt and
are omitted. -/
structure YtOpts where
  format : String
  player_client : List String
  deriving Repr, DecidableEq

/-- The `player_client` list of `YTDLP_COMMON`. -/
def YTDLP_COMMON_player_client : List String := ["android", "web_safari", "web"]

/-- The option set of the first `extract_info` attempt in
`ytdlp_download`. -/
def baseOpts (mode : String) (height : Int) : YtOpts :=
  { format := _build_format_string mode height,
    player_client := YTDLP_COMMON_player_client }

/-- A `DownloadError` raised by an attempt, classified by the two
substring tests `ytdlp_download` applies to `str(e)`:
`formatNA` = `"Requested format is not available" in msg`,
`forbidden` = `"HTTP Error 403" in msg or "Forbidden" in msg`. -/
structure DLErr where
  formatNA : Bool
  forbidden : Bool
  deriving Repr, DecidableEq

/-- Function `ytdlp_download`, with the network call `YoutubeDL.extract_info`
abstracted as an oracle `attempt : YtOpts → Except DLErr α` (the
external MediaFetcher capability; `α` stands for the `info` dict).
Returns the final result together with the option sets attempted, in
order. -/
def ytdlp_download {α : Type} (attempt : YtOpts → Except DLErr α)
    (mode : String) (height : Int) : Except DLErr α × List YtOpts :=
  let opts := baseOpts mode height
  match attempt opts with
  | .ok info => (.ok info, [opts])
  | .error e =>
    if e.formatNA then
      let opts2 := { opts with
        format := if mode ≠ "audio" then "b/best" else "ba/bestaudio/best" }
      (attempt opts2, [opts, opts2])
    else if e.forbidden then
      let opts3 := { opts with player_client := ["android"] }
      (attempt opts3, [opts, opts3])
    else (.error e, [opts])

/-- The character class `[A-Za-z0-9._ -]` of the regex in `_safe_stem`. -/
def allowedChar (c : Char) : Bool :=
  (decide ('A' ≤ c) && decide (c ≤ 'Z'))
    || (decide ('a' ≤ c) && decide (c ≤ 'z'))
    || (decide ('0' ≤ c) && decide (c ≤ '9'))
    || c == '.' || c == '_' || c == ' ' || c == '-'

/-- Substitution `re.sub(r"[^A-Za-z0-9._ -]+", "_", ...)`: each maximal run of
characters outside the class is replaced by a single underscore. -/
def subRuns : List Char → List Char
  | [] => []
  | c :: cs =>
    if allowedChar c then c :: subRuns cs
    else '_' :: subRuns (cs.dropWhile (fun d => !allowedChar d))
termination_by l => l.length
decreasing_by
  · simp
  · have := (List.dropWhile_suffix (l := cs) (fun d => !allowedChar d)).length_le
    simp
    omega

/-- Python `str.strip()`: remove leading and trailing whitespace.
Modelled with `Char.isWhitespace`; the two notions agree on every
character `subRuns` can output, which is all `_safe_stem` needs. -/
def pyStrip (l : List Char) : List Char :=
  ((l.dropWhile Char.isWhitespace).reverse.dropWhile Char.isWhitespace).reverse

/-- Function `_safe_stem(name)` from the source, over the characters of the
Python string:
`s = re.sub(r"[^A-Za-z0-9._ -]+", "_", (name or "file")).strip()`,
then `return s or "file"`. -/
def _safe_stem (name : List Char) : List Char :=
  let base := if name = [] then "file".data else name
  let s := pyStrip (subRuns base)
  if s = [] then "file".data else s

theorem subRuns_allowed : ∀ (l : List Char), ∀ c ∈ subRuns l, allowedChar c = true := by
  intro l
  induction l using subRuns.induct with
  | case1 => intro c hc; simp [subRuns] at hc
  | case2 c cs hall ih =>
    intro d hd
    rw [subRuns, if_pos hall] at hd
    rcases List.mem_cons.mp hd with rfl | hd
    · exact hall
    · exact ih d hd
  | case3 c cs hall ih =>
    intro d hd
    rw [subRuns, if_neg hall] at hd
    rcases List.mem_cons.mp hd with rfl | hd
    · decide
    · exact ih d hd

theorem subRuns_of_allowed : ∀ (l : List Char),
    (∀ c ∈ l, allowedChar c = true) → subRuns l = l := by
  intro l
  induction l with
  | nil => intro _; simp [subRuns]
  | cons c cs ih =>
    intro h
    have hc : allowedChar c = true := h c (by simp)
    rw [subRuns, if_pos hc, ih (fun d hd => h d (by simp [hd]))]

theorem dropWhile_head_false {p : Char → Bool} :
    ∀ {l : List Char} {c : Char}, (l.dropWhile p).head? = some c → p c = false := by
  intro l
  induction l with
  | nil => intro c hc; simp at hc
  | cons a as ih =>
    intro c hc
    by_cases ha : p a
    · rw [List.dropWhile_cons, if_pos ha] at hc
      exact ih hc
    · rw [List.dropWhile_cons, if_neg ha] at hc
      simp at hc
      rw [← hc]
      exact Bool.eq_false_iff.mpr ha

theorem dropWhile_eq_self {p : Char → Bool} {l : List Char} {c : Char}
    (hh : l.head? = some c) (hc : p c = false) : l.dropWhile p = l := by
  cases l with
  | nil => rfl
  | cons a as =>
    simp at hh
    rw [List.dropWhile_cons, hh, if_neg (by rw [hc]; simp)]

theorem mem_pyStrip {l : List Char} {c : Char} (h : c ∈ pyStrip l) : c ∈ l := by
  unfold pyStrip at h
  rw [List.mem_reverse] at h
  have h2 := List.Sublist.mem h ((List.dropWhile_suffix Char.isWhitespace).sublist)
  rw [List.mem_reverse] at h2
  exact List.Sublist.mem h2 ((List.dropWhile_suffix Char.isWhitespace).sublist)

theorem pyStrip_head_false {l : List Char} {c : Char}
    (h : (pyStrip l).head? = some c) : c.isWhitespace = false := by
  have hpre : (pyStrip l) <+:
      (l.dropWhile Char.isWhitespace) := by
    have hsuf := List.dropWhile_suffix (l := (l.dropWhile Char.isWhitespace).reverse)
      Char.isWhitespace
    have := List.reverse_prefix.mpr hsuf
    rwa [List.reverse_reverse] at this
  obtain ⟨t, ht⟩ := hpre
  cases hps : pyStrip l with
  | nil => rw [hps] at h; simp at h
  | cons a as =>
    rw [hps] at h ht
    simp at h
    apply dropWhile_head_false (l := l) (c := c)
    rw [← ht, h]
    simp

theorem pyStrip_getLast_false {l : List Char} {c : Char}
    (h : (pyStrip l).getLast? = some c) : c.isWhitespace = false := by
  rw [← List.head?_reverse] at h
  unfold pyStrip at h
  rw [List.reverse_reverse] at h
  exact dropWhile_head_false h

theorem pyStrip_eq_self {l : List Char}
    (h1 : ∀ c, l.head? = some c → c.isWhitespace = false)
    (h2 : ∀ c, l.getLast? = some c → c.isWhitespace = false) :
    pyStrip l = l := by
  cases l with
  | nil => rfl
  | cons a as =>
    have hd : (a :: as).dropWhile Char.isWhitespace = a :: as :=
      dropWhile_eq_self (by simp) (h1 a (by simp))
    unfold pyStrip
    rw [hd]
    cases hrl : (a :: as).reverse with
    | nil => simp at hrl
    | cons b bs =>
      have hb : b.isWhitespace = false := by
        apply h2 b
        rw [← List.head?_reverse, hrl]
        simp
      rw [dropWhile_eq_self (l := b :: bs) (c := b) rfl hb, ← hrl,
        List.reverse_reverse]

/-- One entry of `list_entries_with_meta`: a watch URL with optional
`timestamp` and `view_count` (both kept only when `isinstance(_, int)`). -/
structure Entry where
  url : String
  timestamp : Option Int
  view_count : Option Int
  deriving Repr, DecidableEq

/-- The sort key `int(x.get("timestamp") or 0)` of the `latest:` branch
of `select_urls` (`None or 0` and `0 or 0` both give `0`). -/
def tskey (it : Entry) : Int := it.timestamp.getD 0

/-- The descending-timestamp ordering used by
`items2.sort(key=..., reverse=True)`. -/
def latestRel (a b : Entry) : Prop := tskey b ≤ tskey a

instance : DecidableRel latestRel :=
  fun a b => inferInstanceAs (Decidable (tskey b ≤ tskey a))

instance : IsTotal Entry latestRel :=
  ⟨fun a b => le_total (tskey b) (tskey a)⟩

instance : IsTrans Entry latestRel :=
  ⟨fun _ _ _ h1 h2 => le_trans h2 h1⟩

/-- Call `items2.sort(key=lambda x: int(x.get("timestamp") or 0), reverse=True)`.
Python's `list.sort` is a stable sort; insertion sort ordered by
`latestRel` is extensionally the same function, which the stability
characterisation `latestSort_filter_key` below makes precise. -/
def latestSort (l : List Entry) : List Entry :=
  l.insertionSort latestRel

/-- The padding loop of the `latest:` branch: walk the original items,
append those whose URL is not in `seen` (the URLs of the timestamped
items — `seen` is never updated inside the loop), and stop as soon as
the accumulated list reaches `n`. -/
def padLoop (n : Nat) (seen : List String) :
    List Entry → List Entry → List Entry
  | acc, [] => acc
  | acc, it :: rest =>
    if seen.contains it.url then padLoop n seen acc rest
    else
      if n ≤ (acc ++ [it]).length then acc ++ [it]
      else padLoop n seen (acc ++ [it]) rest

/-- The `latest:n` branch of `select_urls`: keep the timestamped items,
stable-sort them by timestamp descending, pad with not-yet-seen items in
original order while below `n`, return the first `n` URLs. -/
def selectLatest (n : Nat) (items : List Entry) : List String :=
  let items2 := latestSort (items.filter (fun it => it.timestamp.isSome))
  let items3 :=
    if items2.length < n then
      padLoop n (items2.map (fun it => it.url)) items2 items
    else items2
  (items3.take n).map (fun it => it.url)

/-- The claim's reading of the `latest:n` selection: the timestamped
items sorted by timestamp descending (stable), padded with the items
not bearing timestamps in original enumeration order, truncated to `n`,
mapped to URLs. -/
def selectLatestClaim (n : Nat) (items : List Entry) : List String :=
  ((latestSort (items.filter (fun it => it.timestamp.isSome)))
      ++ items.filter (fun it => !it.timestamp.isSome)).take n
    |>.map (fun it => it.url)

/-- Set `ALLOWED_NETLOC` from the source configuration block. -/
def ALLOWED_NETLOC : List (List Char) :=
  ["youtube.com".data, "www.youtube.com".data, "youtu.be".data,
    "m.youtube.com".data]

/-- Python `str.lower()` on the ASCII range, per character. -/
def pyLower (c : Char) : Char :=
  if 'A' ≤ c ∧ c ≤ 'Z' then Char.ofNat (c.toNat + 32) else c

/-- The body of `is_youtube_url`, as a function of the `netloc` the
stdlib `urlparse` (an external capability) extracts from the URL:
`any(netloc.lower().endswith(d) for d in ALLOWED_NETLOC)`. -/
def is_youtube_netloc (netloc : List Char) : Bool :=
  ALLOWED_NETLOC.any (fun d => d.isSuffixOf (netloc.map pyLower))

/-- C1: for every run in which all N fetches succeed, `do_bulk` produces
exactly `ceil(N / BATCH_SIZE)` containers whose member counts are
`BATCH_SIZE` for every container except possibly the last, which holds
`N mod BATCH_SIZE` members (`BATCH_SIZE` when `N mod BATCH_SIZE = 0`). -/
theorem claim_C1 {α : Type} (u : Nat → Bool) (outcomes : List (Option α))
    (h : ∀ o ∈ outcomes, o.isSome) :
    (do_bulk u outcomes).containers.length
        = (outcomes.length + BATCH_SIZE - 1) / BATCH_SIZE
    ∧ (do_bulk u outcomes).containers.map (fun c => c.2.length)
        = List.replicate (outcomes.length / BATCH_SIZE) BATCH_SIZE
          ++ (if outcomes.length % BATCH_SIZE = 0 then []
              else [outcomes.length % BATCH_SIZE]) := by
  have hN := successes_length_of_all_isSome h
  have hs := do_bulk_spec u outcomes
  rw [hN] at hs
  refine ⟨?_, hs.2.2.2.1⟩
  have hlen := congrArg List.length hs.2.2.2.1
  rw [List.length_map] at hlen
  rw [hlen]
  by_cases hmod : outcomes.length % BATCH_SIZE = 0
  · rw [if_pos hmod]
    simp only [List.length_append, List.length_replicate, List.length_nil,
      BATCH_SIZE] at hmod ⊢
    omega
  · rw [if_neg hmod]
    simp only [List.length_append, List.length_replicate, List.length_cons,
      List.length_nil, BATCH_SIZE] at hmod ⊢
    omega

theorem claim_C1_witness :
    ((do_bulk (fun _ => true) (List.replicate 23 (some 0))).containers.length
        = ((List.replicate 23 (some (0 : Nat))).length + BATCH_SIZE - 1) / BATCH_SIZE
      ∧ (do_bulk (fun _ => true) (List.replicate 23 (some 0))).containers.map
            (fun c => c.2.length)
          = List.replicate
                ((List.replicate 23 (some (0 : Nat))).length / BATCH_SIZE) BATCH_SIZE
            ++ (if (List.replicate 23 (some (0 : Nat))).length % BATCH_SIZE = 0
                then [] else [(List.replicate 23 (some (0 : Nat))).length % BATCH_SIZE]))
    ∧ (do_bulk (fun _ => true) (List.replicate 23 (some (0 : Nat)))).containers.map
        (fun c => c.2.length) = [10, 10, 3] := by
  refine ⟨claim_C1 (fun _ => true) (List.replicate 23 (some 0)) ?_, by decide⟩
  intro o ho
  rw [List.eq_of_mem_replicate ho]
  rfl

/-- C2: when every fetch succeeds, the member counts of the produced
containers sum to the number of fetches, and (the items being pairwise
distinct) no item occurs in two containers, nor twice in one. -/
theorem claim_C2 {α : Type} (u : Nat → Bool) (outcomes : List (Option α))
    (h : ∀ o ∈ outcomes, o.isSome) (hnd : (successes outcomes).Nodup) :
    ((do_bulk u outcomes).containers.map (fun c => c.2.length)).sum
        = outcomes.length
    ∧ (do_bulk u outcomes).containers.Pairwise
        (fun c d => ∀ a ∈ c.2, a ∉ d.2)
    ∧ ∀ c ∈ (do_bulk u outcomes).containers, c.2.Nodup := by
  have hN := successes_length_of_all_isSome h
  have hs := do_bulk_spec u outcomes
  have hflat := hs.1
  refine ⟨?_, ?_, ?_⟩
  · have := congrArg List.length hflat
    rw [List.length_flatten, List.map_map] at this
    rw [← hN]
    simpa using this
  · rw [← hflat] at hnd
    have hd := (List.nodup_flatten.mp hnd).2
    rw [List.pairwise_map] at hd
    exact hd.imp (fun {c d} hcd a ha had => hcd ha had)
  · intro c hc
    rw [← hflat] at hnd
    exact (List.nodup_flatten.mp hnd).1 c.2 (List.mem_map_of_mem _ hc)

theorem claim_C2_witness :
    (((do_bulk (fun _ => true) ((List.range 12).map some)).containers.map
          (fun c => c.2.length)).sum = ((List.range 12).map some).length
      ∧ (do_bulk (fun _ => true) ((List.range 12).map some)).containers.Pairwise
          (fun c d => ∀ a ∈ c.2, a ∉ d.2)
      ∧ ∀ c ∈ (do_bulk (fun _ => true) ((List.range 12).map some)).containers,
          c.2.Nodup) := by
  refine claim_C2 (fun _ => true) ((List.range 12).map some) ?_ ?_
  · intro o ho
    obtain ⟨a, _, rfl⟩ := List.mem_map.mp ho
    rfl
  · decide

/-- C4: at the end of the item loop no non-empty open batch is left
behind: the final state has an empty batch; when the loop ends with a
non-empty batch it is appended as one more container (with fewer than
`BATCH_SIZE` members) and given one upload attempt; the batch indices of
the containers are pairwise distinct and every container receives
exactly one upload attempt (no batch is uploaded twice). -/
theorem claim_C4 {α : Type} (u : Nat → Bool) (outcomes : List (Option α)) :
    (do_bulk u outcomes).batch_files = []
    ∧ ((bulkLoop u (initState α) outcomes).batch_files ≠ [] →
        (do_bulk u outcomes).containers
          = (bulkLoop u (initState α) outcomes).containers
            ++ [((bulkLoop u (initState α) outcomes).batch_index,
                 (bulkLoop u (initState α) outcomes).batch_files)]
        ∧ (bulkLoop u (initState α) outcomes).batch_files.length < BATCH_SIZE
        ∧ (do_bulk u outcomes).uploads
            = (bulkLoop u (initState α) outcomes).uploads
              ++ [((bulkLoop u (initState α) outcomes).batch_index,
                   u (bulkLoop u (initState α) outcomes).batch_index)])
    ∧ ((do_bulk u outcomes).containers.map (fun c => c.1)).Nodup
    ∧ (do_bulk u outcomes).uploads
        = (do_bulk u outcomes).containers.map (fun c => (c.1, u c.1)) := by
  have hs := do_bulk_spec u outcomes
  have hinv := do_bulk_inv u outcomes
  refine ⟨hs.2.1, ?_, ?_, hs.2.2.2.2.1⟩
  · intro hne
    have hbf : ¬ (bulkLoop u (initState α) outcomes).batch_files.isEmpty := by
      rw [List.isEmpty_iff]
      exact hne
    refine ⟨?_, hinv.open_lt, ?_⟩
    · show (flushRemainder u (bulkLoop u (initState α) outcomes)).containers = _
      rw [flushRemainder, if_neg hbf]
    · show (flushRemainder u (bulkLoop u (initState α) outcomes)).uploads = _
      rw [flushRemainder, if_neg hbf]
  · rw [hs.2.2.2.2.2]
    exact List.nodup_range' _ _

theorem claim_C4_witness :
    (do_bulk (fun _ => true) [some 0, some 1]).batch_files = []
    ∧ (do_bulk (fun _ => true) [some 0, some 1]).containers
        = (bulkLoop (fun _ => true) (initState Nat) [some 0, some 1]).containers
          ++ [((bulkLoop (fun _ => true) (initState Nat) [some 0, some 1]).batch_index,
               (bulkLoop (fun _ => true) (initState Nat) [some 0, some 1]).batch_files)]
    ∧ (bulkLoop (fun _ => true) (initState Nat) [some 0, some 1]).batch_files.length
        < BATCH_SIZE := by
  have h := claim_C4 (fun _ => true) ([some 0, some 1] : List (Option Nat))
  have h2 := h.2.1 (by decide)
  exact ⟨h.1, h2.1, h2.2.1⟩

/-- C5: the upload outcomes never influence the rest of the run — the
containers, the processed count, the final batch and the batch index
are the same for any two upload oracles — and each produced container
gets exactly one upload attempt, whose (possibly failed) outcome is
recorded; a failed upload neither aborts the run nor carries members
over. -/
theorem claim_C5 {α : Type} (u u' : Nat → Bool) (outcomes : List (Option α)) :
    (do_bulk u outcomes).containers = (do_bulk u' outcomes).containers
    ∧ (do_bulk u outcomes).processed = (do_bulk u' outcomes).processed
    ∧ (do_bulk u outcomes).batch_files = (do_bulk u' outcomes).batch_files
    ∧ (do_bulk u outcomes).batch_index = (do_bulk u' outcomes).batch_index
    ∧ (do_bulk u outcomes).uploads
        = (do_bulk u outcomes).containers.map (fun c => (c.1, u c.1)) := by
  have h12 : coreOf (do_bulk u outcomes) = coreOf (do_bulk u' outcomes) :=
    (coreOf_do_bulk u outcomes).trans (coreOf_do_bulk u' outcomes).symm
  refine ⟨congrArg CoreState.containers h12, congrArg CoreState.processed h12,
    congrArg CoreState.batch_files h12, congrArg CoreState.batch_index h12,
    (do_bulk_spec u outcomes).2.2.2.2.1⟩

theorem claim_C5_witness :
    (do_bulk (fun _ => false) [some 0, some 1, none]).containers
        = (do_bulk (fun _ => true) [some 0, some 1, none]).containers
    ∧ (do_bulk (fun _ => false) [some 0, some 1, none]).processed
        = (do_bulk (fun _ => true) [some 0, some 1, none]).processed :=
  ⟨(claim_C5 (fun _ => false) (fun _ => true)
      ([some 0, some 1, none] : List (Option Nat))).1,
   (claim_C5 (fun _ => false) (fun _ => true)
      ([some 0, some 1, none] : List (Option Nat))).2.1⟩

/-- C6: when every fetch fails the run ends normally with a tally of
`0` processed out of `N` discovered, and no container is produced or
uploaded. -/
theorem claim_C6 {α : Type} (u : Nat → Bool) (outcomes : List (Option α))
    (h : ∀ o ∈ outcomes, o = none) :
    finalTally u outcomes = (0, outcomes.length)
    ∧ (do_bulk u outcomes).containers = []
    ∧ (do_bulk u outcomes).uploads = [] := by
  have hnil := successes_eq_nil_of_all_none h
  have hs := do_bulk_spec u outcomes
  rw [hnil] at hs
  have hcon : (do_bulk u outcomes).containers = [] := by
    simpa using hs.2.2.2.1
  refine ⟨?_, hcon, ?_⟩
  · have hp := hs.2.2.1
    simp at hp
    rw [finalTally, hp]
  · rw [hs.2.2.2.2.1, hcon]
    rfl

theorem claim_C6_witness :
    finalTally (fun _ => true) ([none, none, none] : List (Option Nat)) = (0, 3)
    ∧ (do_bulk (fun _ => true) ([none, none, none] : List (Option Nat))).containers
        = []
    ∧ (do_bulk (fun _ => true) ([none, none, none] : List (Option Nat))).uploads
        = [] :=
  claim_C6 (fun _ => true) [none, none, none] (by decide)

/-- C3 (size-bounded batching, modelled from the spec): no produced
container's member sizes sum past the budget unless the container holds
a single member that alone exceeds the budget; members are never split,
dropped or reordered; no container is empty. -/
theorem claim_C3 (budget : Nat) (sizes : List Nat) :
    (∀ c ∈ sizeBatch budget sizes,
        budget < c.sum → ∃ s, c = [s] ∧ budget < s)
    ∧ (sizeBatch budget sizes).flatten = sizes
    ∧ ∀ c ∈ sizeBatch budget sizes, c ≠ [] := by
  have h := sizeBatch_spec budget sizes
  exact ⟨fun c hc => (h.1 c hc).1, h.2, fun c hc => (h.1 c hc).2⟩

theorem claim_C3_witness :
    sizeBatch 47 [20, 20, 20, 1, 1] = [[20, 20], [20, 1, 1]]
    ∧ (sizeBatch 47 [20, 20, 20, 1, 1]).flatten = [20, 20, 20, 1, 1]
    ∧ sizeBatch 47 [80] = [[80]]
    ∧ (47 < List.sum [80] → ∃ s, [80] = [s] ∧ 47 < s) :=
  ⟨by decide, (claim_C3 47 [20, 20, 20, 1, 1]).2.1, by decide,
   (claim_C3 47 [80]).1 [80] (by decide)⟩

/-- C7: an attempt failing the `"Requested format is not available"`
test is retried exactly once with the relaxed format selector; an
attempt failing only the 403/Forbidden test is retried exactly once with
the `["android"]` player client; any other error propagates with no
retry.  The result is whatever the single retry returns — there is no
further fallback. -/
theorem claim_C7 {α : Type} (attempt : YtOpts → Except DLErr α)
    (mode : String) (height : Int) (e : DLErr)
    (hfail : attempt (baseOpts mode height) = .error e) :
    (e.formatNA = true →
      ytdlp_download attempt mode height
        = (attempt { baseOpts mode height with
              format := if mode ≠ "audio" then "b/best" else "ba/bestaudio/best" },
           [baseOpts mode height,
            { baseOpts mode height with
              format := if mode ≠ "audio" then "b/best" else "ba/bestaudio/best" }]))
    ∧ (e.formatNA = false → e.forbidden = true →
      ytdlp_download attempt mode height
        = (attempt { baseOpts mode height with player_client := ["android"] },
           [baseOpts mode height,
            { baseOpts mode height with player_client := ["android"] }]))
    ∧ (e.formatNA = false → e.forbidden = false →
      ytdlp_download attempt mode height
        = (.error e, [baseOpts mode height])) := by
  refine ⟨?_, ?_, ?_⟩
  · intro h1
    rw [ytdlp_download, hfail]
    simp only [h1, if_pos]
  · intro h1 h2
    rw [ytdlp_download, hfail]
    simp only [h1, h2, Bool.false_eq_true, if_false, if_pos]
  · intro h1 h2
    rw [ytdlp_download, hfail]
    simp only [h1, h2, Bool.false_eq_true, if_false]

/-- A concrete attempt oracle for the C7 witness: fails with a
403-classified error unless asked with the `["android"]` client. -/
def attemptC7 : YtOpts → Except DLErr Nat :=
  fun o => if o.player_client = ["android"] then .ok 0
           else .error { formatNA := false, forbidden := true }

theorem claim_C7_witness :
    ytdlp_download attemptC7 "video" 0
      = (attemptC7 { baseOpts "video" 0 with player_client := ["android"] },
         [baseOpts "video" 0,
          { baseOpts "video" 0 with player_client := ["android"] }]) :=
  (claim_C7 attemptC7 "video" 0 { formatNA := false, forbidden := true }
      (by rfl)).2.1 rfl rfl

theorem safe_stem_cases (name : List Char) :
    (_safe_stem name = "file".data
      ∧ pyStrip (subRuns (if name = [] then "file".data else name)) = [])
    ∨ (_safe_stem name
          = pyStrip (subRuns (if name = [] then "file".data else name))
      ∧ pyStrip (subRuns (if name = [] then "file".data else name)) ≠ []) := by
  by_cases hs : pyStrip (subRuns (if name = [] then "file".data else name)) = []
  · left
    exact ⟨by rw [_safe_stem, if_pos hs], hs⟩
  · right
    exact ⟨by rw [_safe_stem, if_neg hs], hs⟩

theorem safe_stem_ne_nil (name : List Char) : _safe_stem name ≠ [] := by
  rcases safe_stem_cases name with ⟨h, _⟩ | ⟨h, hne⟩
  · rw [h]; decide
  · rw [h]; exact hne

theorem safe_stem_allowed (name : List Char) :
    ∀ c ∈ _safe_stem name, allowedChar c = true := by
  rcases safe_stem_cases name with ⟨h, _⟩ | ⟨h, _⟩ <;> rw [h]
  · decide
  · intro c hc
    exact subRuns_allowed _ c (mem_pyStrip hc)

theorem safe_stem_head (name : List Char) :
    ∀ c, (_safe_stem name).head? = some c → c.isWhitespace = false := by
  rcases safe_stem_cases name with ⟨h, _⟩ | ⟨h, _⟩ <;> rw [h]
  · intro c hc
    have hf : ("file".data : List Char) = ['f', 'i', 'l', 'e'] := rfl
    rw [hf] at hc
    simp at hc
    rw [← hc]
    decide
  · intro c hc
    exact pyStrip_head_false hc

theorem safe_stem_getLast (name : List Char) :
    ∀ c, (_safe_stem name).getLast? = some c → c.isWhitespace = false := by
  rcases safe_stem_cases name with ⟨h, _⟩ | ⟨h, _⟩ <;> rw [h]
  · intro c hc
    have hf : ("file".data : List Char) = ['f', 'i', 'l', 'e'] := rfl
    rw [hf] at hc
    simp at hc
    rw [← hc]
    decide
  · intro c hc
    exact pyStrip_getLast_false hc

/-- C8: the archive-name sanitizer `_safe_stem` is idempotent. -/
theorem claim_C8 (name : List Char) :
    _safe_stem (_safe_stem name) = _safe_stem name := by
  have hne := safe_stem_ne_nil name
  have hsub : subRuns (_safe_stem name) = _safe_stem name :=
    subRuns_of_allowed _ (safe_stem_allowed name)
  have hstrip : pyStrip (subRuns (_safe_stem name)) = _safe_stem name := by
    rw [hsub]
    exact pyStrip_eq_self (safe_stem_head name) (safe_stem_getLast name)
  rw [_safe_stem]
  simp only [if_neg hne, hstrip]

theorem filter_orderedInsert (k : Int) (a : Entry) (l : List Entry) :
    (List.orderedInsert latestRel a l).filter (fun it => tskey it == k)
      = if tskey a = k
        then a :: l.filter (fun it => tskey it == k)
        else l.filter (fun it => tskey it == k) := by
  induction l with
  | nil =>
    rw [List.orderedInsert_nil]
    by_cases hk : tskey a = k
    · rw [if_pos hk, List.filter_cons, if_pos (by simp [hk])]
    · rw [if_neg hk, List.filter_cons, if_neg (by simp [hk])]
  | cons b bs ih =>
    rw [List.orderedInsert]
    by_cases hr : latestRel a b
    · rw [if_pos hr]
      by_cases hk : tskey a = k
      · rw [if_pos hk, List.filter_cons (x := a), if_pos (by simp [hk])]
      · rw [if_neg hk, List.filter_cons (x := a), if_neg (by simp [hk])]
    · rw [if_neg hr]
      have hab : tskey a < tskey b := lt_of_not_le (fun hle => hr hle)
      by_cases hk : tskey a = k
      · have hbk : (tskey b == k) = false := by
          simp only [beq_eq_false_iff_ne, ne_eq]
          omega
        rw [if_pos hk]
        simp only [List.filter_cons, hbk, Bool.false_eq_true, if_false]
        rw [ih, if_pos hk]
      · rw [if_neg hk]
        simp only [List.filter_cons]
        rw [ih, if_neg hk]

/-- Stability of the descending timestamp sort: for every key value the
equal-key entries appear in the sorted output exactly in their original
order.  Together with sortedness this pins the sort down to the one
stable descending sort, which is what Python's `list.sort` computes. -/
theorem latestSort_filter_key (k : Int) (l : List Entry) :
    (latestSort l).filter (fun it => tskey it == k)
      = l.filter (fun it => tskey it == k) := by
  induction l with
  | nil => rfl
  | cons a l ih =>
    show (List.orderedInsert latestRel a
        (List.insertionSort latestRel l)).filter (fun it => tskey it == k) = _
    rw [filter_orderedInsert]
    by_cases hk : tskey a = k
    · rw [if_pos hk,
        show List.insertionSort latestRel l = latestSort l from rfl, ih,
        List.filter_cons, if_pos (by simp [hk])]
    · rw [if_neg hk,
        show List.insertionSort latestRel l = latestSort l from rfl, ih,
        List.filter_cons, if_neg (by simp [hk])]

theorem padLoop_eq (n : Nat) (seen : List String) :
    ∀ (rest acc : List Entry), acc.length < n →
    padLoop n seen acc rest
      = acc ++ (rest.filter (fun it => !seen.contains it.url)).take
          (n - acc.length) := by
  intro rest
  induction rest with
  | nil =>
    intro acc _
    simp [padLoop]
  | cons it rest ih =>
    intro acc hacc
    rw [padLoop]
    by_cases hseen : seen.contains it.url
    · rw [if_pos hseen, ih acc hacc]
      simp only [List.filter_cons, hseen, Bool.not_true, Bool.false_eq_true,
        if_false]
    · rw [if_neg hseen]
      simp only [List.filter_cons, hseen, Bool.not_false, if_pos]
      by_cases hfull : n ≤ (acc ++ [it]).length
      · rw [if_pos hfull]
        have h1 : n - acc.length = 1 := by
          simp at hfull
          omega
        rw [h1, List.take_succ_cons, List.take_zero]
      · rw [if_neg hfull]
        have hlt : (acc ++ [it]).length < n := Nat.lt_of_not_le hfull
        rw [ih _ hlt]
        have h1 : n - acc.length = (n - (acc ++ [it]).length) + 1 := by
          simp at hlt ⊢
          omega
        rw [h1, List.take_succ_cons]
        simp

/-- C9 counterexample: two items share the URL `"u"`, the first bearing
a timestamp, the second not.  The claim's reading pads with the second
item and returns two URLs, but the code's `seen` check (URL-based)
skips it, so only one URL is returned. -/
theorem claim_C9_cex :
    selectLatest 2 [{ url := "u", timestamp := some 5, view_count := none },
                    { url := "u", timestamp := none, view_count := none }]
      ≠ selectLatestClaim 2
          [{ url := "u", timestamp := some 5, view_count := none },
           { url := "u", timestamp := none, view_count := none }] := by
  decide

/-- C9 (amended: provided the item URLs are pairwise distinct, so that
the URL-based `seen` test coincides with "bears no timestamp"): the
`latest:n` selection returns the timestamped items stable-sorted by
timestamp descending, padded with the remaining (timestamp-less) items
in original enumeration order, truncated to `n`; the sort is descending
(`Pairwise latestRel`) and stable (equal-key entries keep their original
relative order). -/
theorem claim_C9 (n : Nat) (items : List Entry)
    (hnd : (items.map (fun it => it.url)).Nodup) :
    selectLatest n items = selectLatestClaim n items
    ∧ (latestSort (items.filter (fun it => it.timestamp.isSome))).Pairwise
        latestRel
    ∧ ∀ k : Int,
        (latestSort (items.filter (fun it => it.timestamp.isSome))).filter
            (fun it => tskey it == k)
          = (items.filter (fun it => it.timestamp.isSome)).filter
              (fun it => tskey it == k) := by
  refine ⟨?_, List.sorted_insertionSort latestRel _,
    fun k => latestSort_filter_key k _⟩
  have hkey : ∀ it ∈ items,
      ((latestSort (items.filter (fun j => j.timestamp.isSome))).map
          (fun j => j.url)).contains it.url = it.timestamp.isSome := by
    intro it hit
    cases hsome : it.timestamp.isSome with
    | true =>
      have hmem : it ∈ items.filter (fun j => j.timestamp.isSome) :=
        List.mem_filter.mpr ⟨hit, hsome⟩
      have hmem2 : it ∈ latestSort (items.filter (fun j => j.timestamp.isSome)) :=
        ((List.perm_insertionSort latestRel _).mem_iff).mpr hmem
      exact List.elem_iff.mpr (List.mem_map_of_mem _ hmem2)
    | false =>
      apply Bool.eq_false_iff.mpr
      intro hcontains
      obtain ⟨j, hj, hurl⟩ := List.mem_map.mp (List.elem_iff.mp hcontains)
      have hjts : j ∈ items.filter (fun x => x.timestamp.isSome) :=
        ((List.perm_insertionSort latestRel _).mem_iff).mp hj
      have hji := List.mem_filter.mp hjts
      have hje : j = it := List.inj_on_of_nodup_map hnd hji.1 hit hurl
      rw [hje] at hji
      rw [hji.2] at hsome
      exact absurd hsome (by simp)
  have hfilter : items.filter (fun it =>
        !((latestSort (items.filter (fun j => j.timestamp.isSome))).map
            (fun j => j.url)).contains it.url)
      = items.filter (fun it => !it.timestamp.isSome) :=
    List.filter_congr (fun it hit => by rw [hkey it hit])
  rw [selectLatest, selectLatestClaim]
  by_cases hlt :
      (latestSort (items.filter (fun it => it.timestamp.isSome))).length < n
  · rw [if_pos hlt,
      padLoop_eq n _ items (latestSort (items.filter (fun it => it.timestamp.isSome)))
        hlt, hfilter]
    congr 1
    rw [List.take_append_eq_append_take, List.take_append_eq_append_take,
      List.take_of_length_le (Nat.le_of_lt hlt), List.take_take,
      Nat.min_self]
  · rw [if_neg hlt]
    rw [List.take_append_of_le_length (Nat.le_of_not_lt hlt)]

theorem claim_C9_witness :
    (selectLatest 3 [{ url := "a", timestamp := some 1, view_count := none },
                     { url := "b", timestamp := some 5, view_count := none },
                     { url := "c", timestamp := none, view_count := none },
                     { url := "d", timestamp := none, view_count := none }]
        = selectLatestClaim 3
            [{ url := "a", timestamp := some 1, view_count := none },
             { url := "b", timestamp := some 5, view_count := none },
             { url := "c", timestamp := none, view_count := none },
             { url := "d", timestamp := none, view_count := none }])
    ∧ selectLatest 3 [{ url := "a", timestamp := some 1, view_count := none },
                      { url := "b", timestamp := some 5, view_count := none },
                      { url := "c", timestamp := none, view_count := none },
                      { url := "d", timestamp := none, view_count := none }]
        = ["b", "a", "c"] :=
  ⟨(claim_C9 3 [{ url := "a", timestamp := some 1, view_count := none },
                { url := "b", timestamp := some 5, view_count := none },
                { url := "c", timestamp := none, view_count := none },
                { url := "d", timestamp := none, view_count := none }]
      (by decide)).1, by decide⟩

/-- C10: `is_youtube_url` accepts exactly the URLs whose lowercased
netloc ends (as a raw string suffix, with no dot-boundary check) with
one of the four allowed domains; in particular it accepts the
non-YouTube hosts `notyoutube.com` and `evilyoutu.be`. -/
theorem claim_C10 :
    (∀ netloc : List Char, is_youtube_netloc netloc = true
      ↔ ∃ d ∈ ALLOWED_NETLOC, d.isSuffixOf (netloc.map pyLower) = true)
    ∧ is_youtube_netloc "notyoutube.com".data = true
    ∧ is_youtube_netloc "evilyoutu.be".data = true
    ∧ "notyoutube.com".data ∉ ALLOWED_NETLOC
    ∧ "evilyoutu.be".data ∉ ALLOWED_NETLOC := by
  refine ⟨?_, by decide, by decide, by decide, by decide⟩
  intro netloc
  exact List.any_eq_true

end TgBot
